import Mathlib

/-!
Verification of the data-loading layer of FrePainter (`data_utils.py`).

The definitions below are a shallow embedding of the Python source:
* `bisect` embeds `DistributedBucketSampler._bisect` (recursive binary search);
* `assignBuckets`, `removeLoop`, `bucketTarget`, `createBuckets` embed
  `DistributedBucketSampler._create_buckets` (bucket assignment, the backward
  empty-bucket removal loop with `list.pop`, and the per-bucket padding target);
* `extendBucket`, `strided`, `chunks`, `permuteBy`, `iterBatches` embed
  `DistributedBucketSampler.__iter__` (python slicing `l[rank::num_replicas]`
  is `strided`, list repetition and truncation is `extendBucket`, the final
  `assert` and the `ZeroDivisionError` on an empty bucket are made explicit in
  an `Except` result);
* `melLoaderInit`, `manifestLen` embed the manifest reading and in-place
  shuffle of `MelLoader.__init__` (the seeded `random.shuffle` is an external
  library call and enters as an abstract permutation parameter);
* `melCollate` embeds `MelCollate.__call__` (descending argsort of the frame
  lengths, copy into a zero-filled buffer of width `max_length`).

Machine integers do not overflow here (python ints are unbounded), so lengths
and boundaries are `Int` and indices are `Nat`.
-/

namespace FrePainter

/-- Model of `DistributedBucketSampler._bisect(x, lo, hi)` (data_utils.py lines 185-198).
Returns the bucket index as an integer, `-1` when no bucket matches.
The Python recursion terminates because `hi - lo` strictly decreases; here an
explicit `fuel` counter plays that role (each call decreases it by one, so any
`fuel ≥ hi - lo` gives the behaviour of the source). -/
def bisectAux (b : List Int) (x : Int) : Nat → Nat → Nat → Int
  | 0, _, _ => -1
  | fuel + 1, lo, hi =>
    if lo < hi then
      if b.getD ((hi + lo) / 2) 0 < x ∧ x ≤ b.getD ((hi + lo) / 2 + 1) 0 then
        ((hi + lo) / 2 : Nat)
      else if x ≤ b.getD ((hi + lo) / 2) 0 then
        bisectAux b x fuel lo ((hi + lo) / 2)
      else
        bisectAux b x fuel ((hi + lo) / 2 + 1) hi
    else
      -1

/-- The call `self._bisect(x)` with default arguments `lo=0, hi=len(self.boundaries)-1`;
the fuel `b.length` exceeds the initial `hi - lo`, so it never runs out. -/
def bisect (b : List Int) (x : Int) : Int :=
  bisectAux b x b.length 0 (b.length - 1)

/-- Python `buckets[idx_bucket].append(i)` — append `j` to the `k`-th bucket. -/
def appendAt (bks : List (List Nat)) (k : Nat) (j : Nat) : List (List Nat) :=
  bks.set k (bks.getD k [] ++ [j])

/-- One iteration of the assignment loop in `_create_buckets`
(data_utils.py lines 126-130). -/
def assignStep (bds : List Int) (lengths : List Int) (bks : List (List Nat))
    (j : Nat) : List (List Nat) :=
  let idx := bisect bds (lengths.getD j 0)
  if idx = -1 then bks else appendAt bks idx.toNat j

/-- The assignment phase of `_create_buckets`: start from
`len(boundaries) - 1` empty buckets and place each item index in the bucket
returned by `_bisect` of its length (items with result `-1` are dropped). -/
def assignBuckets (lengths : List Int) (bds : List Int) : List (List Nat) :=
  (List.range lengths.length).foldl (assignStep bds lengths)
    (List.replicate (bds.length - 1) [])

/-- The contents of bucket `k` after the first `m` iterations of the
assignment loop: the item indices `j < m` whose `_bisect` result is `k`, in
increasing order.  Used only to characterise `assignBuckets`
(see `assign_foldl_eq`). -/
def bucketOf (bds lengths : List Int) (k : Nat) : Nat → List Nat
  | 0 => []
  | m + 1 =>
      bucketOf bds lengths k m ++
        (if bisect bds (lengths.getD m 0) = (k : Int) then [m] else [])

/-- The removal loop of `_create_buckets` (data_utils.py lines 132-135):
`for i in range(len(buckets) - 1, 0, -1): if len(buckets[i]) == 0:
buckets.pop(i); boundaries.pop(i+1)`.  `removeLoop n st` runs the body for
`i = n, n-1, ..., 1` (and does nothing for `i = 0`), exactly like the Python
loop, with `List.eraseIdx` playing the role of `pop`. -/
def removeLoop : Nat → List (List Nat) × List Int → List (List Nat) × List Int
  | 0, st => st
  | i + 1, (bks, bds) =>
      removeLoop i
        (if bks.getD (i + 1) [] = [] then
          (bks.eraseIdx (i + 1), bds.eraseIdx (i + 2))
        else (bks, bds))

/-- The per-bucket sample target of `_create_buckets`
(data_utils.py lines 139-142): `len_bucket + rem` with
`rem = (total_batch_size - (len_bucket % total_batch_size)) % total_batch_size`. -/
def bucketTarget (n d : Nat) : Nat :=
  n + ((d - n % d) % d)

/-- The only error `__init__` can raise itself: with
`total_batch_size = num_replicas * batch_size == 0`, the expression
`len_bucket % total_batch_size` on line 141 raises `ZeroDivisionError`
(this happens iff the bucket list is non-empty, i.e. the loop body runs). -/
inductive InitError
  | zeroDivInit
  deriving DecidableEq, Repr

/-- Model of `DistributedBucketSampler._create_buckets` (data_utils.py lines 124-143),
as called from `__init__`: assignment phase, backward removal loop, then the
padding-target loop.  Returns the final buckets, the compacted boundary list
and `num_samples_per_bucket`. -/
def createBuckets (lengths : List Int) (bds : List Int) (B R : Nat) :
    Except InitError (List (List Nat) × List Int × List Nat) :=
  let bks0 := assignBuckets lengths bds
  let st := removeLoop (bks0.length - 1) (bks0, bds)
  if st.1 ≠ [] ∧ R * B = 0 then
    .error .zeroDivInit
  else
    .ok (st.1, st.2, st.1.map (fun bk => bucketTarget bk.length (R * B)))

/-- Line 121: `self.total_size = sum(self.num_samples_per_bucket)`. -/
def totalSize (nspb : List Nat) : Nat := nspb.sum

/-- Line 122: `self.num_samples = self.total_size // self.num_replicas`. -/
def numSamples (nspb : List Nat) (R : Nat) : Nat := totalSize nspb / R

/-- Model of `DistributedBucketSampler.__len__` (lines 200-201):
`self.num_samples // self.batch_size`. -/
def samplerLen (ns B : Nat) : Nat := ns / B

/-- The two ways `__iter__` can raise instead of returning batches:
`rem // len_bucket` on line 167 raises `ZeroDivisionError` when a retained
bucket is empty, and the `assert` on line 182 raises `AssertionError` when the
batch count times the batch size differs from `num_samples`. -/
inductive IterError
  | zeroDiv
  | assertFail
  deriving DecidableEq, Repr

/-- Line 167 of `__iter__`:
`ids_bucket = ids_bucket + ids_bucket * (rem // len_bucket) + ids_bucket[:(rem % len_bucket)]`
with `rem = num_samples_bucket - len_bucket`. -/
def extendBucket (ids : List Nat) (lenB target : Nat) : List Nat :=
  ids ++ (List.replicate ((target - lenB) / lenB) ids).flatten ++
    ids.take ((target - lenB) % lenB)

/-- Python slice `l[start::step]` (line 170, `ids_bucket[self.rank::self.num_replicas]`):
the `ceil((len - start) / step)` elements at indices `start, start + step, ...`. -/
def strided (l : List Nat) (start step : Nat) : List Nat :=
  (List.range ((l.length - start + (step - 1)) / step)).map
    (fun k => l.getD (start + k * step) 0)

/-- Lines 173-174 of `__iter__`: the `len(ids_bucket) // self.batch_size`
chunks `ids_bucket[j*B:(j+1)*B]`; a remainder shorter than `B` is dropped. -/
def chunks (B : Nat) (l : List Nat) : List (List Nat) :=
  (List.range (l.length / B)).map (fun j => (l.drop (j * B)).take B)

/-- Lines 178-179 of `__iter__`: `batches = [batches[i] for i in batch_ids]`. -/
def permuteBy (p : List Nat) (l : List (List Nat)) : List (List Nat) :=
  p.map (fun i => l.getD i [])

/-- Lines 150-156 of `__iter__`: one `torch.randperm(len(bucket))` per bucket
when shuffling, else `list(range(len(bucket)))`.  `rp seed k n` models the
`k`-th call of `torch.randperm(n, generator=g)` on a generator with
`g.manual_seed(seed)`; torch's generator is an external library, so the
permutation stream enters as a parameter. -/
def iterIndices (rp : Nat → Nat → Nat → List Nat) (epoch : Nat) (shuffle : Bool)
    (buckets : List (List Nat)) : List (List Nat) :=
  if shuffle then
    (List.range buckets.length).map (fun i => rp epoch i (buckets.getD i []).length)
  else
    buckets.map (fun bk => List.range bk.length)

/-- Lines 160-175 of `__iter__`, body of the bucket loop: extend the permuted
index list to `num_samples_bucket` entries, take the rank's strided slice,
chunk it into batches of `batch_size`, and map positions back to item
indices. -/
def bucketBatches (B R rank : Nat) (bk ids : List Nat) (target : Nat) :
    List (List Nat) :=
  (chunks B (strided (extendBucket ids bk.length target) rank R)).map
    (fun ch => ch.map (fun idx => bk.getD idx 0))

/-- Lines 158-175 of `__iter__`: the concatenation of all buckets' batches,
in bucket order. -/
def allBatches (buckets indices : List (List Nat)) (nspb : List Nat)
    (B R rank : Nat) : List (List Nat) :=
  ((List.range buckets.length).map (fun i =>
    bucketBatches B R rank (buckets.getD i []) (indices.getD i [])
      (nspb.getD i 0))).flatten

/-- Model of `DistributedBucketSampler.__iter__` (data_utils.py lines 145-183).
The result is the batch list, or the error `__iter__` raises:
`ZeroDivisionError` when some retained bucket is empty (`rem // len_bucket`
on line 167 with `len_bucket == 0`), or `AssertionError` from the final
`assert` (line 182, compared against `self.num_samples`, passed as `ns`).
The generator calls are counted in order: one per bucket, then one for the
final batch shuffle (line 178). -/
def iterBatches (rp : Nat → Nat → Nat → List Nat) (epoch : Nat) (shuffle : Bool)
    (buckets : List (List Nat)) (nspb : List Nat) (B R rank ns : Nat) :
    Except IterError (List (List Nat)) :=
  if buckets.any (fun bk => bk.isEmpty) then
    .error .zeroDiv
  else
    let batches :=
      allBatches buckets (iterIndices rp epoch shuffle buckets) nspb B R rank
    let batches :=
      if shuffle then permuteBy (rp epoch buckets.length batches.length) batches
      else batches
    if batches.length * B = ns then .ok batches else .error .assertFail

/-- The sampler fields that `__iter__` reads (set in `__init__` /
`set_epoch`). -/
structure SamplerState where
  epoch : Nat
  shuffle : Bool
  buckets : List (List Nat)
  nspb : List Nat
  batchSize : Nat
  numReplicas : Nat
  rank : Nat
  ns : Nat

/-- The map `__iter__` as a function of the sampler state and the generator's
permutation stream. -/
def iterSampler (rp : Nat → Nat → Nat → List Nat) (s : SamplerState) :
    Except IterError (List (List Nat)) :=
  iterBatches rp s.epoch s.shuffle s.buckets s.nspb s.batchSize s.numReplicas
    s.rank s.ns

/-- The identity permutation stream, a valid instance of the `rp` parameter. -/
def idPerm : Nat → Nat → Nat → List Nat := fun _ _ n => List.range n

/-- Length clamping in `MelLoader.__init__` line 21 (and
`AudioMelMixedMaskRandomLoader.__init__` line 73):
`length if length <= hps.max_length else hps.max_length`. -/
def clampLen (maxL v : Int) : Int := if v ≤ maxL then v else maxL

/-- The file-path column of the manifest (`MelLoader.__init__` line 19). -/
def melNpys (records : List (String × Int)) : List String :=
  records.map Prod.fst

/-- The clamped length column of the manifest (`MelLoader.__init__`
lines 20-21). -/
def melLengths (maxL : Int) (records : List (String × Int)) : List Int :=
  records.map (fun r => clampLen maxL r.2)

/-- Model of `MelLoader.__init__` lines 17-23: read parallel path and length columns,
then `random.seed(1234); random.shuffle(self.npys)` — the shuffle is applied
to the path list only, the length list keeps manifest order.  The seeded
`random.shuffle` is an external library call, modelled by the abstract
permutation `shuffle`. -/
def melLoaderInit (shuffle : List String → List String) (maxL : Int)
    (records : List (String × Int)) : List String × List Int :=
  (shuffle (melNpys records), melLengths maxL records)

/-- The length the manifest records for a file path (clamped as on load):
the length field of the first manifest record naming that path. -/
def manifestLen (maxL : Int) (records : List (String × Int)) (p : String) : Int :=
  clampLen maxL (((records.find? (fun r => r.1 == p)).getD (p, 0)).2)

/-- The value `mel.size(1)` for a mel modelled as its list of feature rows. -/
def melLen (m : List (List Int)) : Nat := (m.getD 0 []).length

/-- One output row of `mel_padded`: the item's row followed by the zeros the
pre-zeroed buffer keeps beyond `mel.size(1)` (`MelCollate.__call__`
lines 50-55). -/
def padRow (maxLen : Nat) (row : List Int) : List Int :=
  row ++ List.replicate (maxLen - row.length) 0

/-- The write `mel_padded[i, :, :mel.size(1)] = mel` on the pre-zeroed buffer, for one
output row `i`. -/
def padMel (maxLen : Nat) (m : List (List Int)) : List (List Int) :=
  m.map (padRow maxLen)

/-- Stable insertion into a list kept in descending `key` order. -/
def insertDesc (key : Nat → Nat) (a : Nat) : List Nat → List Nat
  | [] => [a]
  | b :: bs => if key b < key a then a :: b :: bs else b :: insertDesc key a bs

/-- A descending sort by `key`, modelling
`torch.sort(..., descending=True)` on line 46 of `MelCollate.__call__`
(torch specifies the order of the sorted keys, not of tying indices; any
descending argsort is a faithful model). -/
def sortDesc (key : Nat → Nat) (l : List Nat) : List Nat :=
  l.foldr (insertDesc key) []

/-- Model of `MelCollate.__call__` (data_utils.py lines 45-57): argsort the frame
lengths descending, then write each item into row `i` of the zero-filled
`(N, feature_dim, max_len)` buffer and record its true length. -/
def melCollate (maxLen : Nat) (batch : List (List (List Int))) :
    List (List (List Int)) × List Nat :=
  let ids := sortDesc (fun j => melLen (batch.getD j [])) (List.range batch.length)
  (ids.map (fun j => padMel maxLen (batch.getD j [])),
   ids.map (fun j => melLen (batch.getD j [])))

/-! ### Helper lemmas about `bisect` -/

theorem getD_lt_of_pairwise {b : List Int} (hmono : List.Pairwise (· < ·) b)
    {i j : Nat} (hij : i < j) (hj : j < b.length) :
    b.getD i 0 < b.getD j 0 := by
  have hi : i < b.length := lt_trans hij hj
  rw [List.getD_eq_getElem _ _ hi, List.getD_eq_getElem _ _ hj]
  exact List.pairwise_iff_getElem.mp hmono i j hi hj hij

/-- Manual unfolding equation for `bisectAux` at positive fuel. -/
theorem bisectAux_succ (b : List Int) (x : Int) (f lo hi : Nat) :
    bisectAux b x (f + 1) lo hi =
      if lo < hi then
        if b.getD ((hi + lo) / 2) 0 < x ∧ x ≤ b.getD ((hi + lo) / 2 + 1) 0 then
          (((hi + lo) / 2 : Nat) : Int)
        else if x ≤ b.getD ((hi + lo) / 2) 0 then
          bisectAux b x f lo ((hi + lo) / 2)
        else
          bisectAux b x f ((hi + lo) / 2 + 1) hi
      else -1 := rfl

theorem getD_le_of_pairwise {b : List Int} (hmono : List.Pairwise (· < ·) b)
    {i j : Nat} (hij : i ≤ j) (hj : j < b.length) :
    b.getD i 0 ≤ b.getD j 0 := by
  rcases Nat.eq_or_lt_of_le hij with rfl | h
  · exact le_refl _
  · exact (getD_lt_of_pairwise hmono h hj).le

/-- Soundness of the binary search: the result is `-1` or an index `i` in
`[lo, hi)` with `b[i] < x ≤ b[i+1]`. -/
theorem bisectAux_sound (b : List Int) (x : Int) :
    ∀ (fuel lo hi : Nat), hi - lo ≤ fuel →
      bisectAux b x fuel lo hi = -1 ∨
      ∃ i : Nat, bisectAux b x fuel lo hi = (i : Int) ∧ lo ≤ i ∧ i < hi ∧
        b.getD i 0 < x ∧ x ≤ b.getD (i + 1) 0 := by
  intro fuel
  induction fuel with
  | zero => intro lo hi _; left; rfl
  | succ f ih =>
    intro lo hi hle
    by_cases h : lo < hi
    · by_cases h1 : b.getD ((hi + lo) / 2) 0 < x ∧ x ≤ b.getD ((hi + lo) / 2 + 1) 0
      · right
        refine ⟨(hi + lo) / 2, ?_, by omega, by omega, h1.1, h1.2⟩
        rw [bisectAux_succ, if_pos h, if_pos h1]
      · by_cases h2 : x ≤ b.getD ((hi + lo) / 2) 0
        · have heq : bisectAux b x (f + 1) lo hi =
              bisectAux b x f lo ((hi + lo) / 2) := by
            rw [bisectAux_succ, if_pos h, if_neg h1, if_pos h2]
          rw [heq]
          rcases ih lo ((hi + lo) / 2) (by omega) with h3 | ⟨i, e1, e2, e3, e4, e5⟩
          · left; exact h3
          · right; exact ⟨i, e1, e2, by omega, e4, e5⟩
        · have heq : bisectAux b x (f + 1) lo hi =
              bisectAux b x f ((hi + lo) / 2 + 1) hi := by
            rw [bisectAux_succ, if_pos h, if_neg h1, if_neg h2]
          rw [heq]
          rcases ih ((hi + lo) / 2 + 1) hi (by omega) with h3 | ⟨i, e1, e2, e3, e4, e5⟩
          · left; exact h3
          · right; exact ⟨i, e1, by omega, e3, e4, e5⟩
    · left; rw [bisectAux_succ, if_neg h]

/-- Completeness of the binary search: when a witness index lies in the
interval searched (and the boundary list is strictly increasing), the result
is not `-1`. -/
theorem bisectAux_ne_neg_one (b : List Int) (x : Int)
    (hmono : List.Pairwise (· < ·) b) :
    ∀ (fuel lo hi : Nat), hi - lo ≤ fuel → hi < b.length →
      ∀ i : Nat, lo ≤ i → i < hi → b.getD i 0 < x → x ≤ b.getD (i + 1) 0 →
      bisectAux b x fuel lo hi ≠ -1 := by
  intro fuel
  induction fuel with
  | zero => intro lo hi hle _ i h1 h2 _ _; omega
  | succ f ih =>
    intro lo hi hle hhi i hli hih hbi hxi
    by_cases h : lo < hi
    · by_cases h1 : b.getD ((hi + lo) / 2) 0 < x ∧ x ≤ b.getD ((hi + lo) / 2 + 1) 0
      · have heq : bisectAux b x (f + 1) lo hi = (((hi + lo) / 2 : Nat) : Int) := by
          rw [bisectAux_succ, if_pos h, if_pos h1]
        rw [heq]; omega
      · by_cases h2 : x ≤ b.getD ((hi + lo) / 2) 0
        · have heq : bisectAux b x (f + 1) lo hi =
              bisectAux b x f lo ((hi + lo) / 2) := by
            rw [bisectAux_succ, if_pos h, if_neg h1, if_pos h2]
          have him : i < (hi + lo) / 2 := by
            by_contra htr
            have : b.getD ((hi + lo) / 2) 0 ≤ b.getD i 0 :=
              getD_le_of_pairwise hmono (by omega) (by omega)
            omega
          rw [heq]
          exact ih lo ((hi + lo) / 2) (by omega) (by omega) i hli him hbi hxi
        · have hmid : b.getD ((hi + lo) / 2) 0 < x := by omega
          have hmid1 : b.getD ((hi + lo) / 2 + 1) 0 < x := by
            rcases not_and.mp h1 hmid |> not_le.mp with h3
            exact h3
          have heq : bisectAux b x (f + 1) lo hi =
              bisectAux b x f ((hi + lo) / 2 + 1) hi := by
            rw [bisectAux_succ, if_pos h, if_neg h1, if_neg h2]
          have him : (hi + lo) / 2 + 1 ≤ i := by
            by_contra htr
            have : b.getD (i + 1) 0 ≤ b.getD ((hi + lo) / 2 + 1) 0 :=
              getD_le_of_pairwise hmono (by omega) (by omega)
            omega
          rw [heq]
          exact ih ((hi + lo) / 2 + 1) hi (by omega) hhi i him hih hbi hxi
    · omega

/-- Under strict monotonicity the witness interval is unique. -/
theorem bisect_witness_unique {b : List Int} (hmono : List.Pairwise (· < ·) b)
    {x : Int} {i j : Nat} (hi : i + 1 < b.length) (hj : j + 1 < b.length)
    (hbi : b.getD i 0 < x) (hxi : x ≤ b.getD (i + 1) 0)
    (hbj : b.getD j 0 < x) (hxj : x ≤ b.getD (j + 1) 0) : i = j := by
  by_contra hne
  rcases Nat.lt_or_ge i j with h | h
  · have : b.getD (i + 1) 0 ≤ b.getD j 0 :=
      getD_le_of_pairwise hmono (by omega) (by omega)
    omega
  · have hlt : j < i := by omega
    have : b.getD (j + 1) 0 ≤ b.getD i 0 :=
      getD_le_of_pairwise hmono (by omega) (by omega)
    omega

/-- Discrete intermediate-value fact: if `x` lies strictly above the first
boundary and at most the last, some adjacent pair of boundaries brackets it. -/
theorem exists_bisect_witness :
    ∀ (b : List Int), List.Pairwise (· < ·) b → ∀ x : Int,
      b.getD 0 0 < x → x ≤ b.getD (b.length - 1) 0 →
      ∃ i : Nat, i + 1 ≤ b.length - 1 ∧ b.getD i 0 < x ∧ x ≤ b.getD (i + 1) 0
  | [], _, x, h1, h2 => by simp [List.getD] at h1 h2; omega
  | [a], _, x, h1, h2 => by simp [List.getD] at h1 h2; omega
  | a :: c :: rest, hmono, x, h1, h2 => by
    by_cases hc : x ≤ c
    · exact ⟨0, by simp, by simpa using h1, by simpa using hc⟩
    · have hmono2 : List.Pairwise (· < ·) (c :: rest) :=
        (List.pairwise_cons.mp hmono).2
      have h1r : (c :: rest).getD 0 0 < x := by simpa using not_le.mp hc
      have h2r : x ≤ (c :: rest).getD ((c :: rest).length - 1) 0 := by
        simpa [List.getD_cons_succ] using h2
      obtain ⟨i, hi1, hi2, hi3⟩ := exists_bisect_witness (c :: rest) hmono2 x h1r h2r
      refine ⟨i + 1, ?_, by simpa [List.getD_cons_succ] using hi2,
        by simpa [List.getD_cons_succ] using hi3⟩
      simp only [List.length_cons] at hi1 ⊢
      omega

/-- C5: For every strictly increasing boundary list `[b0, ..., bK]` and
every integer length `x`, `_bisect` returns index `i` iff
`boundaries[i] < x ≤ boundaries[i+1]` (with `i` a valid bucket index), and
returns `-1` iff `x ≤ boundaries[0]` or `x > boundaries[K]`; an item whose
`_bisect` result is `-1` is assigned to no bucket by the assignment loop of
`_create_buckets`. -/
theorem bisect_spec (b : List Int) (x : Int)
    (hmono : List.Pairwise (· < ·) b) (hb : 1 ≤ b.length) :
    (∀ i : Nat, bisect b x = (i : Int) ↔
      (i + 1 ≤ b.length - 1 ∧ b.getD i 0 < x ∧ x ≤ b.getD (i + 1) 0)) ∧
    (bisect b x = -1 ↔ (x ≤ b.getD 0 0 ∨ b.getD (b.length - 1) 0 < x)) ∧
    (∀ (lengths : List Int) (bks : List (List Nat)) (j : Nat),
      bisect b (lengths.getD j 0) = -1 → assignStep b lengths bks j = bks) := by
  have hsound := bisectAux_sound b x b.length 0 (b.length - 1) (by omega)
  refine ⟨?_, ⟨?_, ?_⟩, ?_⟩
  · intro i
    constructor
    · intro hres
      have hres2 : bisectAux b x b.length 0 (b.length - 1) = (i : Int) := hres
      rcases hsound with hneg | ⟨j, hj, _, hjlt, hbj, hxj⟩
      · rw [hres2] at hneg; omega
      · rw [hres2] at hj
        have hij : i = j := by omega
        subst hij
        exact ⟨by omega, hbj, hxj⟩
    · rintro ⟨hrange, hbi, hxi⟩
      have hne := bisectAux_ne_neg_one b x hmono b.length 0 (b.length - 1)
        (by omega) (by omega) i (Nat.zero_le _) (by omega) hbi hxi
      rcases hsound with hneg | ⟨j, hj, _, hjlt, hbj, hxj⟩
      · exact absurd hneg hne
      · have hij : i = j := bisect_witness_unique hmono (by omega) (by omega)
          hbi hxi hbj hxj
        show bisectAux b x b.length 0 (b.length - 1) = (i : Int)
        rw [hj, hij]
  · intro hres
    by_contra hcon
    push_neg at hcon
    obtain ⟨i, hi1, hi2, hi3⟩ :=
      exists_bisect_witness b hmono x (by omega) (by omega)
    exact bisectAux_ne_neg_one b x hmono b.length 0 (b.length - 1)
      (by omega) (by omega) i (Nat.zero_le _) (by omega) hi2 hi3 hres
  · intro hcase
    rcases hsound with hneg | ⟨j, hj, _, hjlt, hbj, hxj⟩
    · exact hneg
    · exfalso
      rcases hcase with h1 | h2
      · have : b.getD 0 0 ≤ b.getD j 0 :=
          getD_le_of_pairwise hmono (Nat.zero_le _) (by omega)
        omega
      · have : b.getD (j + 1) 0 ≤ b.getD (b.length - 1) 0 :=
          getD_le_of_pairwise hmono (by omega) (by omega)
        omega
  · intro lengths bks j hres
    simp only [assignStep, hres]
    exact if_pos trivial

/-- Concrete instance of `bisect_spec`: with boundaries `[0, 10, 20]` the
length `15` lands in bucket `1`. -/
theorem bisect_spec_witness : bisect [0, 10, 20] 15 = (1 : Int) :=
  ((bisect_spec [0, 10, 20] 15 (by decide) (by decide)).1 1).mpr (by decide)

/-! ### Helper lemmas about `_create_buckets` -/

theorem bisect_cases (b : List Int) (x : Int) :
    bisect b x = -1 ∨ ∃ i : Nat, bisect b x = (i : Int) ∧ i < b.length - 1 := by
  rcases bisectAux_sound b x b.length 0 (b.length - 1) (by omega) with
    h | ⟨i, h1, _, h3, _, _⟩
  · exact Or.inl h
  · exact Or.inr ⟨i, h1, h3⟩

theorem getD_map_range {α : Type} (f : Nat → α) (d : α) {i K : Nat} (hi : i < K) :
    ((List.range K).map f).getD i d = f i := by
  rw [List.getD_eq_getElem _ _ (by simpa using hi)]
  simp

theorem map_range_set {α : Type} (f : Nat → α) (K i : Nat) (v : α) :
    ((List.range K).map f).set i v =
      (List.range K).map (fun k => if k = i then v else f k) := by
  apply List.ext_getElem
  · simp
  · intro n h1 h2
    rw [List.getElem_set]
    simp only [List.getElem_map, List.getElem_range]
    by_cases hn : n = i
    · subst hn; simp
    · rw [if_neg (fun h => hn h.symm), if_neg hn]

theorem assign_foldl_eq (bds lengths : List Int) (m : Nat) :
    (List.range m).foldl (assignStep bds lengths)
      (List.replicate (bds.length - 1) []) =
    (List.range (bds.length - 1)).map (fun k => bucketOf bds lengths k m) := by
  induction m with
  | zero =>
    simp [bucketOf, List.map_const', List.eq_replicate_iff]
  | succ m ih =>
    rw [List.range_succ, List.foldl_append, ih]
    simp only [List.foldl_cons, List.foldl_nil]
    rcases bisect_cases bds (lengths.getD m 0) with hres | ⟨i, hres, hlt⟩
    · simp only [assignStep, hres]
      rw [if_pos trivial]
      apply List.map_congr_left
      intro k _
      rw [bucketOf, if_neg (by rw [hres]; omega), List.append_nil]
    · simp only [assignStep, hres]
      rw [if_neg (by omega : ¬((i : Nat) : Int) = -1)]
      simp only [appendAt, Int.toNat_natCast]
      rw [getD_map_range _ _ hlt, map_range_set]
      apply List.map_congr_left
      intro k _
      by_cases hki : k = i
      · subst hki
        rw [if_pos rfl, bucketOf, if_pos hres]
      · rw [if_neg hki, bucketOf, if_neg ?_, List.append_nil]
        rw [hres]
        intro hc
        exact hki (by exact_mod_cast hc.symm)

theorem assignBuckets_eq (lengths bds : List Int) :
    assignBuckets lengths bds =
      (List.range (bds.length - 1)).map
        (fun k => bucketOf bds lengths k lengths.length) :=
  assign_foldl_eq bds lengths lengths.length

theorem assignBuckets_length (lengths bds : List Int) :
    (assignBuckets lengths bds).length = bds.length - 1 := by
  rw [assignBuckets_eq]; simp

theorem count_bucketOf (bds lengths : List Int) (k j : Nat) (m : Nat) :
    (bucketOf bds lengths k m).count j =
      if j < m ∧ bisect bds (lengths.getD j 0) = (k : Int) then 1 else 0 := by
  induction m with
  | zero => simp [bucketOf]
  | succ m ih =>
    rw [bucketOf, List.count_append, ih]
    have hsing : (if bisect bds (lengths.getD m 0) = (k : Int) then [m] else []).count j
        = if j = m ∧ bisect bds (lengths.getD m 0) = (k : Int) then 1 else 0 := by
      by_cases hb : bisect bds (lengths.getD m 0) = (k : Int)
      · rw [if_pos hb]
        by_cases hjm : j = m
        · subst hjm
          rw [if_pos ⟨rfl, hb⟩]
          simp
        · rw [if_neg (fun h => hjm h.1)]
          simp [List.count_singleton', hjm]
      · rw [if_neg hb, if_neg (fun h => hb h.2)]
        simp
    rw [hsing]
    by_cases hjm : j = m
    · subst hjm
      by_cases hb : bisect bds (lengths.getD j 0) = (k : Int)
      · rw [if_neg (fun h => absurd h.1 (Nat.lt_irrefl j)), if_pos ⟨rfl, hb⟩,
          if_pos ⟨by omega, hb⟩]
      · rw [if_neg (fun h => hb h.2), if_neg (fun h => hb h.2),
          if_neg (fun h => hb h.2)]
    · have hiff : (j < m + 1 ∧ bisect bds (lengths.getD j 0) = (k : Int)) ↔
          (j < m ∧ bisect bds (lengths.getD j 0) = (k : Int)) := by
        constructor
        · rintro ⟨h1, h2⟩; exact ⟨by omega, h2⟩
        · rintro ⟨h1, h2⟩; exact ⟨by omega, h2⟩
      have h2 : (if j = m ∧ bisect bds (lengths.getD m 0) = (k : Int) then 1 else 0)
          = 0 := if_neg (fun h => hjm h.1)
      rw [h2, Nat.add_zero, if_congr hiff rfl rfl]

theorem sum_indicator_range_le_one (t : Int) (K : Nat) :
    ((List.range K).map (fun (k : Nat) => if t = (k : Int) then 1 else 0)).sum ≤ 1 := by
  induction K with
  | zero => simp
  | succ K ih =>
    rw [List.range_succ, List.map_append, List.sum_append]
    by_cases ht : t = (K : Int)
    · have hzero : ((List.range K).map
          (fun (k : Nat) => if t = (k : Int) then 1 else 0)).sum = 0 := by
        apply List.sum_eq_zero
        intro x hx
        obtain ⟨k, hk, hkx⟩ := List.mem_map.mp hx
        have hklt : k < K := List.mem_range.mp hk
        rw [← hkx, if_neg ?_]
        rw [ht]
        intro hc
        have : K = k := by exact_mod_cast hc
        omega
      rw [hzero]
      simp [ht]
    · simp [ht]
      exact ih

theorem sum_count_assign_le_one (lengths bds : List Int) (j : Nat) :
    ((assignBuckets lengths bds).map (List.count j)).sum ≤ 1 := by
  rw [assignBuckets_eq, List.map_map]
  have hmap : ((List.range (bds.length - 1)).map
      (List.count j ∘ fun k => bucketOf bds lengths k lengths.length)) =
      (List.range (bds.length - 1)).map
        (fun (k : Nat) => if j < lengths.length ∧
          bisect bds (lengths.getD j 0) = (k : Int) then 1 else 0) := by
    apply List.map_congr_left
    intro k _
    exact count_bucketOf bds lengths k j lengths.length
  rw [hmap]
  by_cases hj : j < lengths.length
  · have heq : ((List.range (bds.length - 1)).map
        (fun (k : Nat) => if j < lengths.length ∧
          bisect bds (lengths.getD j 0) = (k : Int) then 1 else 0)) =
        (List.range (bds.length - 1)).map
          (fun (k : Nat) => if bisect bds (lengths.getD j 0) = (k : Int) then 1 else 0) := by
      apply List.map_congr_left
      intro k _
      by_cases hb : bisect bds (lengths.getD j 0) = (k : Int)
      · rw [if_pos ⟨hj, hb⟩, if_pos hb]
      · rw [if_neg (fun h => hb h.2), if_neg hb]
    rw [heq]
    exact sum_indicator_range_le_one _ _
  · have hzero : ((List.range (bds.length - 1)).map
        (fun (k : Nat) => if j < lengths.length ∧
          bisect bds (lengths.getD j 0) = (k : Int) then 1 else 0)).sum = 0 := by
      apply List.sum_eq_zero
      intro x hx
      obtain ⟨k, _, hkx⟩ := List.mem_map.mp hx
      rw [← hkx, if_neg (fun h => hj h.1)]
    omega

theorem getD_eraseIdx_ge {α : Type} :
    ∀ (l : List α) (i k : Nat) (d : α), i ≤ k →
      (l.eraseIdx i).getD k d = l.getD (k + 1) d
  | [], _, _, _, _ => by simp [List.eraseIdx]
  | a :: l, 0, k, d, _ => by
    rw [List.eraseIdx_cons_zero, List.getD_cons_succ]
  | a :: l, i + 1, k, d, h => by
    obtain ⟨k, rfl⟩ : ∃ k0, k = k0 + 1 := ⟨k - 1, by omega⟩
    rw [List.eraseIdx_cons_succ, List.getD_cons_succ, List.getD_cons_succ]
    exact getD_eraseIdx_ge l i k d (by omega)

theorem removeLoop_fst_sublist :
    ∀ (n : Nat) (bks : List (List Nat)) (bds : List Int),
      (removeLoop n (bks, bds)).1.Sublist bks
  | 0, bks, bds => List.Sublist.refl _
  | n + 1, bks, bds => by
    simp only [removeLoop]
    by_cases h : bks.getD (n + 1) [] = []
    · rw [if_pos h]
      exact (removeLoop_fst_sublist n _ _).trans (List.eraseIdx_sublist _ _)
    · rw [if_neg h]
      exact removeLoop_fst_sublist n bks bds

theorem removeLoop_length :
    ∀ (n : Nat) (bks : List (List Nat)) (bds : List Int),
      n < bks.length → bds.length = bks.length + 1 →
      (removeLoop n (bks, bds)).2.length = (removeLoop n (bks, bds)).1.length + 1
  | 0, bks, bds, _, h => h
  | n + 1, bks, bds, hn, h => by
    simp only [removeLoop]
    by_cases hb : bks.getD (n + 1) [] = []
    · rw [if_pos hb]
      have h1 : (bks.eraseIdx (n + 1)).length = bks.length - 1 :=
        List.length_eraseIdx_of_lt hn
      have h2 : (bds.eraseIdx (n + 2)).length = bds.length - 1 :=
        List.length_eraseIdx_of_lt (by omega)
      exact removeLoop_length n _ _ (by omega) (by omega)
    · rw [if_neg hb]
      exact removeLoop_length n bks bds (by omega) h

theorem removeLoop_tail_nonempty :
    ∀ (n : Nat) (bks : List (List Nat)) (bds : List Int),
      n < bks.length →
      (∀ k, n < k → k < bks.length → bks.getD k [] ≠ []) →
      ∀ k, 1 ≤ k → k < (removeLoop n (bks, bds)).1.length →
        (removeLoop n (bks, bds)).1.getD k [] ≠ []
  | 0, bks, bds, _, hpre => fun k hk1 hk2 => hpre k (by omega) hk2
  | n + 1, bks, bds, hn, hpre => by
    simp only [removeLoop]
    by_cases hb : bks.getD (n + 1) [] = []
    · rw [if_pos hb]
      have hlen : (bks.eraseIdx (n + 1)).length = bks.length - 1 :=
        List.length_eraseIdx_of_lt hn
      apply removeLoop_tail_nonempty n (bks.eraseIdx (n + 1)) (bds.eraseIdx (n + 2))
        (by omega)
      intro k hk1 hk2
      rw [getD_eraseIdx_ge _ _ _ _ (by omega)]
      exact hpre (k + 1) (by omega) (by omega)
    · rw [if_neg hb]
      apply removeLoop_tail_nonempty n bks bds (by omega)
      intro k hk1 hk2
      by_cases hkn : k = n + 1
      · subst hkn; exact hb
      · exact hpre k (by omega) hk2

/-- Inversion of a successful `_create_buckets` run. -/
theorem createBuckets_ok_inv (lengths bds : List Int) (B R : Nat)
    (out : List (List Nat) × List Int × List Nat)
    (hout : createBuckets lengths bds B R = .ok out) :
    out = ((removeLoop ((assignBuckets lengths bds).length - 1)
              (assignBuckets lengths bds, bds)).1,
           (removeLoop ((assignBuckets lengths bds).length - 1)
              (assignBuckets lengths bds, bds)).2,
           (removeLoop ((assignBuckets lengths bds).length - 1)
              (assignBuckets lengths bds, bds)).1.map
             (fun bk => bucketTarget bk.length (R * B))) := by
  simp only [createBuckets] at hout
  split at hout
  · exact absurd hout (by simp)
  · injection hout with h
    exact h.symm

/-- C1 counterexample: With lengths `[15]` and strictly increasing
boundaries `[0, 10, 20]` (so the second bucket is non-empty),
`_create_buckets` retains the empty first bucket: the claim that every
retained bucket is non-empty fails at this input. -/
theorem createBuckets_retains_empty_first_bucket :
    createBuckets [15] [0, 10, 20] 1 1 = .ok ([[], [0]], [0, 10, 20], [0, 1]) ∧
    List.Pairwise (· < ·) ([0, 10, 20] : List Int) ∧
    (∃ bk ∈ [([] : List Nat), [0]], bk ≠ []) ∧
    ¬(∀ bk ∈ [([] : List Nat), [0]], bk ≠ []) :=
  ⟨rfl, by decide, by decide, by decide⟩

/-- C1 amended: For every lengths list and boundary list with at least
one non-empty bucket, after `_create_buckets` runs: every retained bucket
other than the first is non-empty (the backward removal loop stops at index 1
and never examines bucket 0, which may remain empty),
`len(boundaries) == len(buckets) + 1`, and every original item index appears
in at most one bucket and never twice. -/
theorem createBuckets_invariants (lengths bds : List Int) (B R : Nat)
    (hmono : List.Pairwise (· < ·) bds)
    (hne : ∃ bk ∈ assignBuckets lengths bds, bk ≠ [])
    (out : List (List Nat) × List Int × List Nat)
    (hout : createBuckets lengths bds B R = .ok out) :
    (∀ k, 1 ≤ k → k < out.1.length → out.1.getD k [] ≠ []) ∧
    out.2.1.length = out.1.length + 1 ∧
    (∀ j : Nat, (out.1.map (List.count j)).sum ≤ 1) := by
  have hKpos : 0 < (assignBuckets lengths bds).length := by
    obtain ⟨bk, hbk, _⟩ := hne
    exact List.length_pos.mpr (List.ne_nil_of_mem hbk)
  have hbds : bds.length = (assignBuckets lengths bds).length + 1 := by
    rw [assignBuckets_length]
    have : 0 < bds.length - 1 := assignBuckets_length lengths bds ▸ hKpos
    omega
  rw [createBuckets_ok_inv lengths bds B R out hout]
  refine ⟨?_, ?_, ?_⟩
  · exact removeLoop_tail_nonempty _ _ _ (by omega) (fun k hk1 hk2 => by omega)
  · exact removeLoop_length _ _ _ (by omega) hbds
  · intro j
    have hsub : (removeLoop ((assignBuckets lengths bds).length - 1)
        (assignBuckets lengths bds, bds)).1.Sublist (assignBuckets lengths bds) :=
      removeLoop_fst_sublist _ _ _
    calc ((removeLoop ((assignBuckets lengths bds).length - 1)
            (assignBuckets lengths bds, bds)).1.map (List.count j)).sum
        ≤ ((assignBuckets lengths bds).map (List.count j)).sum :=
          List.Sublist.sum_le_sum (hsub.map _) (fun a _ => Nat.zero_le a)
      _ ≤ 1 := sum_count_assign_le_one lengths bds j

/-- Concrete instance of `createBuckets_invariants` at lengths `[5, 15]`,
boundaries `[0, 10, 20]`. -/
theorem createBuckets_invariants_witness :
    ∃ out, createBuckets [5, 15] [0, 10, 20] 1 1 = .ok out ∧
      ((∀ k, 1 ≤ k → k < out.1.length → out.1.getD k [] ≠ []) ∧
        out.2.1.length = out.1.length + 1 ∧
        (∀ j : Nat, (out.1.map (List.count j)).sum ≤ 1)) :=
  ⟨([[0], [1]], [0, 10, 20], [1, 1]), rfl,
    createBuckets_invariants [5, 15] [0, 10, 20] 1 1 (by decide)
      ⟨[0], by decide⟩ _ rfl⟩

/-! ### The per-bucket padding target (`ReplicaPadder`) -/

theorem bucketTarget_ge (n d : Nat) : n ≤ bucketTarget n d :=
  Nat.le_add_right n _

theorem bucketTarget_lt (n d : Nat) (hd : 0 < d) : bucketTarget n d < n + d := by
  have : (d - n % d) % d < d := Nat.mod_lt _ hd
  unfold bucketTarget
  omega

theorem bucketTarget_mod (n d : Nat) (hd : 0 < d) : bucketTarget n d % d = 0 := by
  unfold bucketTarget
  by_cases h : n % d = 0
  · rw [h, Nat.sub_zero, Nat.mod_self, Nat.add_zero]
    exact h
  · have h1 : n % d < d := Nat.mod_lt _ hd
    have h2 : (d - n % d) % d = d - n % d := Nat.mod_eq_of_lt (by omega)
    rw [h2]
    have h4 := Nat.div_add_mod n d
    have h5 : n + (d - n % d) = d * (n / d) + d := by omega
    rw [h5, ← Nat.mul_succ]
    exact Nat.mul_mod_right d _

theorem bucketTarget_dvd (n d : Nat) (hd : 0 < d) : d ∣ bucketTarget n d :=
  Nat.dvd_of_mod_eq_zero (bucketTarget_mod n d hd)

/-- C4: For every bucket size `n ≥ 0` and divisor
`d = num_replicas * batch_size > 0`, the per-bucket sample target computed in
`_create_buckets` equals `n + ((d - (n % d)) % d)` and satisfies
`target ≥ n`, `target % d == 0` and `target < n + d`. -/
theorem bucketTarget_contract (n d : Nat) (hd : 0 < d) :
    bucketTarget n d = n + ((d - n % d) % d) ∧
    n ≤ bucketTarget n d ∧
    bucketTarget n d % d = 0 ∧
    bucketTarget n d < n + d :=
  ⟨rfl, bucketTarget_ge n d, bucketTarget_mod n d hd, bucketTarget_lt n d hd⟩

/-- Concrete instance of `bucketTarget_contract` at `n = 5`, `d = 4`. -/
theorem bucketTarget_contract_witness :
    bucketTarget 5 4 = 5 + ((4 - 5 % 4) % 4) ∧
    5 ≤ bucketTarget 5 4 ∧ bucketTarget 5 4 % 4 = 0 ∧ bucketTarget 5 4 < 5 + 4 :=
  bucketTarget_contract 5 4 (by decide)

/-! ### Construction-time validation (`__init__`) -/

/-- C8 counterexample: The claim that misconfigurations raise at
construction fails: with boundaries `[10, 5]` (not strictly increasing)
construction completes without error, and with boundaries `[0, 10]` and a
length `50` outside every bucket (all buckets empty) it also completes
without error. -/
theorem createBuckets_accepts_bad_config :
    ¬ List.Pairwise (· < ·) ([10, 5] : List Int) ∧
    createBuckets [7] [10, 5] 1 1 = .ok ([[]], [10, 5], [0]) ∧
    createBuckets [50] [0, 10] 1 1 = .ok ([[]], [0, 10], [0]) ∧
    (∀ bk ∈ [([] : List Nat)], bk = []) :=
  ⟨by decide, rfl, rfl, by decide⟩

/-- C8 amended: `DistributedBucketSampler.__init__` performs no
validation: whenever `num_replicas * batch_size > 0`, construction succeeds
for every lengths list and every boundary list — boundaries that are not
strictly increasing and configurations in which all buckets end up empty are
accepted silently rather than raising (they surface, if at all, only at the
first call of `__iter__`). -/
theorem createBuckets_no_validation (lengths bds : List Int) (B R : Nat)
    (h : 0 < R * B) :
    ∃ out, createBuckets lengths bds B R = .ok out := by
  unfold createBuckets
  rw [if_neg]
  · exact ⟨_, rfl⟩
  · rintro ⟨_, h0⟩
    omega

/-- Concrete instance of `createBuckets_no_validation` at the
non-increasing boundary list `[10, 5]`. -/
theorem createBuckets_no_validation_witness :
    ∃ out, createBuckets [7] [10, 5] 1 1 = .ok out :=
  createBuckets_no_validation [7] [10, 5] 1 1 (by decide)

/-- C10: The empty-bucket removal loop never examines bucket 0: with
lengths `[15]` and boundaries `[0, 10, 20]` no item falls in the first
interval but one falls in the second, the empty first bucket is retained, and
the subsequent `__iter__` call fails with the division by zero of
`rem // len_bucket` (modelled as `IterError.zeroDiv`) instead of producing
batches. -/
theorem emptyFirstBucket_iter_zeroDiv :
    createBuckets [15] [0, 10, 20] 1 1 = .ok ([[], [0]], [0, 10, 20], [0, 1]) ∧
    ([[], [0]] : List (List Nat)).getD 0 [] = [] ∧
    ([[], [0]] : List (List Nat)).getD 1 [] ≠ [] ∧
    iterBatches idPerm 0 true [[], [0]] [0, 1] 1 1 0 (numSamples [0, 1] 1) =
      .error .zeroDiv :=
  ⟨rfl, rfl, by decide, rfl⟩

/-! ### Helper lemmas about `__iter__` -/

theorem flatten_replicate_length {α : Type} (m : Nat) (l : List α) :
    (List.replicate m l).flatten.length = m * l.length := by
  induction m with
  | zero => simp
  | succ m ih =>
    rw [List.replicate_succ, List.flatten_cons, List.length_append, ih,
      Nat.succ_mul]
    omega

theorem extendBucket_length (ids : List Nat) (lenB target : Nat)
    (hlen : ids.length = lenB) (h0 : 0 < lenB) (hle : lenB ≤ target) :
    (extendBucket ids lenB target).length = target := by
  unfold extendBucket
  rw [List.length_append, List.length_append, List.length_take,
    flatten_replicate_length, hlen]
  have hdm := Nat.div_add_mod (target - lenB) lenB
  have hmod : (target - lenB) % lenB < lenB := Nat.mod_lt _ h0
  rw [Nat.mul_comm ((target - lenB) / lenB) lenB]
  omega

theorem extendBucket_mem (ids : List Nat) (lenB target : Nat) (x : Nat)
    (hx : x ∈ extendBucket ids lenB target) : x ∈ ids := by
  unfold extendBucket at hx
  rcases List.mem_append.mp hx with hx1 | hx2
  · rcases List.mem_append.mp hx1 with hx3 | hx4
    · exact hx3
    · obtain ⟨l, hl, hxl⟩ := List.mem_flatten.mp hx4
      rw [(List.eq_of_mem_replicate hl)] at hxl
      exact hxl
  · exact List.mem_of_mem_take hx2

theorem strided_length (l : List Nat) (start step : Nat) :
    (strided l start step).length = (l.length - start + (step - 1)) / step := by
  simp [strided]

theorem strided_getD (l : List Nat) (start step k : Nat)
    (hk : k < (l.length - start + (step - 1)) / step) :
    (strided l start step).getD k 0 = l.getD (start + k * step) 0 := by
  unfold strided
  rw [getD_map_range _ _ hk]

theorem strided_length_of_dvd (l : List Nat) (r R : Nat) (hR : 0 < R)
    (hr : r < R) (hd : R ∣ l.length) :
    (strided l r R).length = l.length / R := by
  obtain ⟨m, hm⟩ := hd
  rw [strided_length, hm, Nat.mul_div_cancel_left m hR]
  rcases Nat.eq_zero_or_pos m with rfl | hmpos
  · rw [Nat.mul_zero]
    have h1 : (0 : Nat) - r + (R - 1) = R - 1 := by omega
    rw [h1]
    exact Nat.div_eq_of_lt (by omega)
  · have hrm : r ≤ R * m := le_trans hr.le (Nat.le_mul_of_pos_right R hmpos)
    have h1 : R * m - r + (R - 1) = (R - 1 - r) + m * R := by
      rw [Nat.mul_comm m R]
      omega
    rw [h1, Nat.add_mul_div_right _ _ hR, Nat.div_eq_of_lt (by omega),
      Nat.zero_add]

theorem chunks_length (B : Nat) (l : List Nat) :
    (chunks B l).length = l.length / B := by
  simp [chunks]

theorem getD_map_of_lt {α β : Type} (l : List α) (f : α → β) (i : Nat)
    (hi : i < l.length) (da : α) (db : β) :
    (l.map f).getD i db = f (l.getD i da) := by
  rw [List.getD_eq_getElem _ _ (by simpa using hi), List.getD_eq_getElem _ _ hi,
    List.getElem_map]

theorem range_map_getD {α β : Type} (g : α → β) (d : α) :
    ∀ (l : List α),
      (List.range l.length).map (fun i => g (l.getD i d)) = l.map g
  | [] => by simp
  | a :: t => by
    rw [List.length_cons, List.range_succ_eq_map, List.map_cons, List.map_map,
      List.map_cons]
    refine congrArg₂ _ rfl ?_
    have : ((fun i => g ((a :: t).getD i d)) ∘ Nat.succ) =
        (fun i => g (t.getD i d)) := by
      funext i
      simp [List.getD_cons_succ]
    rw [this]
    exact range_map_getD g d t

theorem sum_map_div (l : List Nat) (D : Nat) (h : ∀ x ∈ l, D ∣ x) :
    (l.map (· / D)).sum = l.sum / D := by
  induction l with
  | nil => simp
  | cons a t ih =>
    rw [List.map_cons, List.sum_cons, List.sum_cons,
      Nat.add_div_of_dvd_right (h a (List.mem_cons_self a t)),
      ih (fun x hx => h x (List.mem_cons_of_mem a hx))]

/-- The batch count contributed by one non-empty bucket. -/
theorem bucketBatches_length (bk ids : List Nat) (B R rank : Nat)
    (hids : ids.length = bk.length) (h0 : bk ≠ [])
    (hB : 0 < B) (hR : 0 < R) (hrank : rank < R) :
    (bucketBatches B R rank bk ids (bucketTarget bk.length (R * B))).length =
      bucketTarget bk.length (R * B) / (R * B) := by
  have hD : 0 < R * B := Nat.mul_pos hR hB
  have hlen0 : 0 < bk.length := List.length_pos.mpr h0
  have hext : (extendBucket ids bk.length (bucketTarget bk.length (R * B))).length
      = bucketTarget bk.length (R * B) :=
    extendBucket_length _ _ _ hids hlen0 (bucketTarget_ge _ _)
  have hdvd : R ∣ (extendBucket ids bk.length
      (bucketTarget bk.length (R * B))).length := by
    rw [hext]
    exact Nat.dvd_trans ⟨B, rfl⟩ (bucketTarget_dvd _ _ hD)
  unfold bucketBatches
  rw [List.length_map, chunks_length,
    strided_length_of_dvd _ _ _ hR hrank hdvd, hext, Nat.div_div_eq_div_mul]

/-- In both the shuffling and the non-shuffling branch, the `i`-th permuted
index list has the length of the `i`-th bucket (for a permutation stream that
returns lists of the requested length). -/
theorem iterIndices_getD_length (rp : Nat → Nat → Nat → List Nat)
    (hrp : ∀ s c n, (rp s c n).length = n) (epoch : Nat) (shuffle : Bool)
    (bks : List (List Nat)) (i : Nat) (hi : i < bks.length) :
    ((iterIndices rp epoch shuffle bks).getD i []).length =
      (bks.getD i []).length := by
  unfold iterIndices
  cases shuffle with
  | true =>
    rw [if_pos rfl, getD_map_range _ _ hi, hrp]
  | false =>
    rw [if_neg (by simp), getD_map_of_lt bks _ i hi []]
    exact List.length_range _

/-- Total batch count of the bucket loop when every bucket is non-empty and
`num_samples_per_bucket` is the padding target of `_create_buckets`:
`total_size / (num_replicas * batch_size)` batches, on every rank. -/
theorem allBatches_length (rp : Nat → Nat → Nat → List Nat)
    (hrp : ∀ s c n, (rp s c n).length = n) (epoch : Nat) (shuffle : Bool)
    (bks : List (List Nat)) (B R rank : Nat)
    (hB : 0 < B) (hR : 0 < R) (hrank : rank < R)
    (hne : ∀ bk ∈ bks, bk ≠ []) :
    (allBatches bks (iterIndices rp epoch shuffle bks)
        (bks.map (fun bk => bucketTarget bk.length (R * B))) B R rank).length =
      (bks.map (fun bk => bucketTarget bk.length (R * B))).sum / (R * B) := by
  have hD : 0 < R * B := Nat.mul_pos hR hB
  unfold allBatches
  rw [List.length_flatten, List.map_map]
  have hcong : (List.range bks.length).map
      (List.length ∘ fun i => bucketBatches B R rank (bks.getD i [])
        ((iterIndices rp epoch shuffle bks).getD i [])
        ((bks.map (fun bk => bucketTarget bk.length (R * B))).getD i 0)) =
      (List.range bks.length).map
        (fun i => bucketTarget (bks.getD i []).length (R * B) / (R * B)) := by
    apply List.map_congr_left
    intro i hi
    have hilt : i < bks.length := List.mem_range.mp hi
    have h1 : (bks.map (fun bk => bucketTarget bk.length (R * B))).getD i 0 =
        bucketTarget (bks.getD i []).length (R * B) :=
      getD_map_of_lt bks _ i hilt [] 0
    have hmem : bks.getD i [] ∈ bks := by
      rw [List.getD_eq_getElem _ _ hilt]
      exact List.getElem_mem hilt
    simp only [Function.comp_apply, h1]
    exact bucketBatches_length (bks.getD i []) _ B R rank
      (iterIndices_getD_length rp hrp epoch shuffle bks i hilt)
      (hne _ hmem) hB hR hrank
  rw [hcong, range_map_getD (fun bk => bucketTarget bk.length (R * B) / (R * B)) [] bks]
  have hmm : bks.map (fun bk => bucketTarget bk.length (R * B) / (R * B)) =
      (bks.map (fun bk => bucketTarget bk.length (R * B))).map (· / (R * B)) := by
    rw [List.map_map]
    rfl
  rw [hmm]
  apply sum_map_div
  intro x hx
  obtain ⟨bk, _, hbk⟩ := List.mem_map.mp hx
  rw [← hbk]
  exact bucketTarget_dvd _ _ hD

/-- C2: For every configuration (strictly increasing boundaries,
`batch_size > 0`, `num_replicas > 0`, valid rank) in which every retained
bucket is non-empty, and every epoch (and both shuffle settings): `__iter__`
succeeds, produces exactly `num_samples // batch_size` batches, the assertion
`len(batches) * batch_size == num_samples` never fails, and `__len__` equals
the actual batch count. -/
theorem iter_batch_count (rp : Nat → Nat → Nat → List Nat)
    (hrp : ∀ s c n, (rp s c n).length = n)
    (lengths bds : List Int) (B R rank epoch : Nat) (shuffle : Bool)
    (hmono : List.Pairwise (· < ·) bds)
    (hB : 0 < B) (hR : 0 < R) (hrank : rank < R)
    (out : List (List Nat) × List Int × List Nat)
    (hout : createBuckets lengths bds B R = .ok out)
    (hne : ∀ bk ∈ out.1, bk ≠ []) :
    ∃ bt, iterBatches rp epoch shuffle out.1 out.2.2 B R rank
        (numSamples out.2.2 R) = .ok bt ∧
      bt.length * B = numSamples out.2.2 R ∧
      bt.length = numSamples out.2.2 R / B ∧
      samplerLen (numSamples out.2.2 R) B = bt.length := by
  have hD : 0 < R * B := Nat.mul_pos hR hB
  have hnspb : out.2.2 = out.1.map (fun bk => bucketTarget bk.length (R * B)) := by
    rw [createBuckets_ok_inv lengths bds B R out hout]
  rw [hnspb]
  have hany : (out.1.any (fun bk => bk.isEmpty)) = false := by
    rw [List.any_eq_false]
    intro bk hbk
    rw [List.isEmpty_iff]
    exact hne bk hbk
  have hsum_dvd : (R * B) ∣
      (out.1.map (fun bk => bucketTarget bk.length (R * B))).sum := by
    apply List.dvd_sum
    intro x hx
    obtain ⟨bk, _, hbk⟩ := List.mem_map.mp hx
    rw [← hbk]
    exact bucketTarget_dvd _ _ hD
  obtain ⟨t, ht⟩ := hsum_dvd
  have hns : numSamples (out.1.map (fun bk => bucketTarget bk.length (R * B))) R
      = B * t := by
    unfold numSamples totalSize
    rw [ht, Nat.mul_assoc, Nat.mul_div_cancel_left _ hR]
  have hMt : (allBatches out.1 (iterIndices rp epoch shuffle out.1)
      (out.1.map (fun bk => bucketTarget bk.length (R * B))) B R rank).length
      = t := by
    rw [allBatches_length rp hrp epoch shuffle out.1 B R rank hB hR hrank hne,
      ht, Nat.mul_div_cancel_left t hD]
  simp only [iterBatches, hany, Bool.false_eq_true, if_false]
  set A := allBatches out.1 (iterIndices rp epoch shuffle out.1)
    (out.1.map (fun bk => bucketTarget bk.length (R * B))) B R rank with hA
  set F := if shuffle then permuteBy (rp epoch out.1.length A.length) A else A
    with hF
  have hFlen : F.length = t := by
    rw [hF]
    cases shuffle
    · simpa using hMt
    · rw [if_pos rfl]
      unfold permuteBy
      rw [List.length_map, hrp]
      exact hMt
  have hcond : F.length * B =
      numSamples (out.1.map (fun bk => bucketTarget bk.length (R * B))) R := by
    rw [hFlen, hns, Nat.mul_comm]
  rw [if_pos hcond]
  refine ⟨F, rfl, hcond, ?_, ?_⟩
  · rw [hFlen, hns, Nat.mul_div_cancel_left t hB]
  · unfold samplerLen
    rw [hFlen, hns, Nat.mul_div_cancel_left t hB]

/-- Concrete instance of `iter_batch_count`: lengths `[5, 15]`, boundaries
`[0, 10, 20]`, `batch_size = num_replicas = 1`, epoch 0, identity
permutations. -/
theorem iter_batch_count_witness :
    ∃ bt, iterBatches idPerm 0 true [[0], [1]] [1, 1] 1 1 0
        (numSamples [1, 1] 1) = .ok bt ∧
      bt.length * 1 = numSamples [1, 1] 1 ∧
      bt.length = numSamples [1, 1] 1 / 1 ∧
      samplerLen (numSamples [1, 1] 1) 1 = bt.length :=
  iter_batch_count idPerm (fun _ _ n => List.length_range n) [5, 15]
    [0, 10, 20] 1 1 0 0 true (by decide) (by decide) (by decide) (by decide)
    ([[0], [1]], [0, 10, 20], [1, 1]) rfl (by decide)

/-- C6: For every non-empty bucket (as its permuted index list `ids`,
one entry per bucket element) and every `num_replicas > 0`,
`batch_size > 0`: the extended per-bucket index list built in `__iter__` has
exactly `num_samples_per_bucket` entries all drawn from the original list,
and the strided subsamples `ids_bucket[rank::num_replicas]` partition it —
each rank receives exactly `target / num_replicas` entries, the entry at
position `k` of rank `r` is slot `r + k * num_replicas` of the extended
list, and every slot `j < target` is read by exactly the rank `j % num_replicas`
at position `j / num_replicas`. -/
theorem extend_strided_partition (ids : List Nat) (B R : Nat)
    (hlen : 0 < ids.length) (hB : 0 < B) (hR : 0 < R) :
    (extendBucket ids ids.length (bucketTarget ids.length (R * B))).length =
      bucketTarget ids.length (R * B) ∧
    (∀ x ∈ extendBucket ids ids.length (bucketTarget ids.length (R * B)),
      x ∈ ids) ∧
    (∀ r, r < R →
      (strided (extendBucket ids ids.length (bucketTarget ids.length (R * B)))
          r R).length = bucketTarget ids.length (R * B) / R) ∧
    (∀ r k, r < R → k < bucketTarget ids.length (R * B) / R →
      (strided (extendBucket ids ids.length (bucketTarget ids.length (R * B)))
          r R).getD k 0 =
        (extendBucket ids ids.length
          (bucketTarget ids.length (R * B))).getD (r + k * R) 0) ∧
    (∀ j, j < bucketTarget ids.length (R * B) →
      (strided (extendBucket ids ids.length (bucketTarget ids.length (R * B)))
          (j % R) R).getD (j / R) 0 =
        (extendBucket ids ids.length
          (bucketTarget ids.length (R * B))).getD j 0) := by
  have hD : 0 < R * B := Nat.mul_pos hR hB
  have hext : (extendBucket ids ids.length
      (bucketTarget ids.length (R * B))).length =
      bucketTarget ids.length (R * B) :=
    extendBucket_length ids ids.length _ rfl hlen (bucketTarget_ge _ _)
  have hdvd : R ∣ (extendBucket ids ids.length
      (bucketTarget ids.length (R * B))).length := by
    rw [hext]
    exact Nat.dvd_trans ⟨B, rfl⟩ (bucketTarget_dvd _ _ hD)
  have hgetD : ∀ r k, r < R → k < bucketTarget ids.length (R * B) / R →
      (strided (extendBucket ids ids.length (bucketTarget ids.length (R * B)))
          r R).getD k 0 =
        (extendBucket ids ids.length
          (bucketTarget ids.length (R * B))).getD (r + k * R) 0 := by
    intro r k hr hk
    apply strided_getD
    have h1 := strided_length (extendBucket ids ids.length
      (bucketTarget ids.length (R * B))) r R
    have h2 := strided_length_of_dvd (extendBucket ids ids.length
      (bucketTarget ids.length (R * B))) r R hR hr hdvd
    rw [h1] at h2
    rw [h2, hext]
    exact hk
  refine ⟨hext, fun x hx => extendBucket_mem _ _ _ x hx, ?_, hgetD, ?_⟩
  · intro r hr
    rw [strided_length_of_dvd _ r R hR hr hdvd, hext]
  · intro j hj
    have hrlt : j % R < R := Nat.mod_lt j hR
    have hklt : j / R < bucketTarget ids.length (R * B) / R := by
      apply Nat.div_lt_div_of_lt_of_dvd ?_ hj
      exact Nat.dvd_trans ⟨B, rfl⟩ (bucketTarget_dvd _ _ hD)
    have := hgetD (j % R) (j / R) hrlt hklt
    rw [this, Nat.mod_add_div' j R]

/-- Concrete instance of `extend_strided_partition` at `ids = [0, 1]`,
`batch_size = 2`, `num_replicas = 2` (target 4, two ranks with two slots
each). -/
theorem extend_strided_partition_witness :
    (extendBucket [0, 1] 2 (bucketTarget 2 4)).length = bucketTarget 2 4 ∧
    (∀ x ∈ extendBucket [0, 1] 2 (bucketTarget 2 4), x ∈ [0, 1]) ∧
    (∀ r, r < 2 →
      (strided (extendBucket [0, 1] 2 (bucketTarget 2 4)) r 2).length =
        bucketTarget 2 4 / 2) ∧
    (∀ r k, r < 2 → k < bucketTarget 2 4 / 2 →
      (strided (extendBucket [0, 1] 2 (bucketTarget 2 4)) r 2).getD k 0 =
        (extendBucket [0, 1] 2 (bucketTarget 2 4)).getD (r + k * 2) 0) ∧
    (∀ j, j < bucketTarget 2 4 →
      (strided (extendBucket [0, 1] 2 (bucketTarget 2 4)) (j % 2) 2).getD
          (j / 2) 0 =
        (extendBucket [0, 1] 2 (bucketTarget 2 4)).getD j 0) :=
  extend_strided_partition [0, 1] 2 2 (by decide) (by decide) (by decide)

/-- C7: For every fixed permutation stream (determined by the seed),
epoch, rank and replica count, two invocations of `__iter__` on equal sampler
states yield identical batch sequences: the output is a function of the
fields listed and nothing else (no hidden global state enters the model). -/
theorem iter_deterministic (rp : Nat → Nat → Nat → List Nat)
    (s1 s2 : SamplerState)
    (he : s1.epoch = s2.epoch) (hsh : s1.shuffle = s2.shuffle)
    (hb : s1.buckets = s2.buckets) (hn : s1.nspb = s2.nspb)
    (hB : s1.batchSize = s2.batchSize) (hR : s1.numReplicas = s2.numReplicas)
    (hr : s1.rank = s2.rank) (hns : s1.ns = s2.ns) :
    iterSampler rp s1 = iterSampler rp s2 := by
  unfold iterSampler
  rw [he, hsh, hb, hn, hB, hR, hr, hns]

/-- Concrete instance of `iter_deterministic`: two syntactically different
but field-equal sampler states yield the same batch sequence. -/
theorem iter_deterministic_witness :
    iterSampler idPerm ⟨0, true, [[0]], [1], 1, 1, 0, 1⟩ =
      iterSampler idPerm ⟨0 + 0, true, [[0]], [1], 1, 1, 0, 1 * 1⟩ :=
  iter_deterministic idPerm _ _ rfl rfl rfl rfl rfl rfl rfl rfl

/-! ### Helper lemmas about `MelLoader.__init__` -/

theorem lists_ne_exists_getD_ne (s n : List String)
    (hlen : s.length = n.length) (hne : s ≠ n) :
    ∃ i, i < n.length ∧ s.getD i "" ≠ n.getD i "" := by
  by_contra h
  push_neg at h
  apply hne
  apply List.ext_getElem hlen
  intro i h1 h2
  have h3 := h i h2
  rw [List.getD_eq_getElem _ _ h1, List.getD_eq_getElem _ _ h2] at h3
  exact h3

theorem find?_of_nodup_keys :
    ∀ (records : List (String × Int)),
      (records.map Prod.fst).Nodup → ∀ i, i < records.length →
      records.find? (fun r => r.1 == (records.getD i ("", 0)).1) =
        some (records.getD i ("", 0))
  | [], _, i, hi => absurd hi (by simp)
  | a :: t, hnd, 0, _ => by
    rw [List.getD_cons_zero, List.find?_cons_of_pos _ (by simp)]
  | a :: t, hnd, i + 1, hi => by
    rw [List.getD_cons_succ]
    have hmem : (t.getD i ("", 0)).1 ∈ t.map Prod.fst := by
      apply List.mem_map_of_mem
      rw [List.getD_eq_getElem _ _ (by simpa using Nat.lt_of_succ_lt_succ hi)]
      exact List.getElem_mem _
    have hkey : a.1 ≠ (t.getD i ("", 0)).1 := by
      intro hc
      rw [List.map_cons, List.nodup_cons] at hnd
      exact hnd.1 (hc ▸ hmem)
    rw [List.find?_cons_of_neg _ (by simpa using hkey)]
    exact find?_of_nodup_keys t
      (by rw [List.map_cons, List.nodup_cons] at hnd; exact hnd.2) i
      (Nat.lt_of_succ_lt_succ hi)

theorem nodup_getD_ne (l : List Int) (hnd : l.Nodup) (i j : Nat)
    (hi : i < l.length) (hj : j < l.length) (hij : i ≠ j) :
    l.getD i 0 ≠ l.getD j 0 := by
  rw [List.getD_eq_getElem _ _ hi, List.getD_eq_getElem _ _ hj]
  intro hc
  exact hij (List.Nodup.getElem_inj_iff hnd |>.mp hc)

/-- C3: `MelLoader.__init__` (and `AudioMelMixedMaskRandomLoader.__init__`)
shuffles the file-path list but leaves the parallel lengths list in manifest
order; whenever the (seeded, externally supplied) shuffle moves any path of a
manifest with pairwise distinct paths and pairwise distinct clamped lengths,
there is an index `i` at which `self.lengths[i]` is not the manifest length
of the file `self.npys[i]`. -/
theorem melLoader_length_mismatch (shuffle : List String → List String)
    (maxL : Int) (records : List (String × Int))
    (hperm : (shuffle (melNpys records)).Perm (melNpys records))
    (hkeys : (melNpys records).Nodup)
    (hlens : (melLengths maxL records).Nodup)
    (hmoved : shuffle (melNpys records) ≠ melNpys records) :
    ∃ i, i < records.length ∧
      (melLoaderInit shuffle maxL records).2.getD i 0 ≠
        manifestLen maxL records
          ((melLoaderInit shuffle maxL records).1.getD i "") := by
  have hslen : (shuffle (melNpys records)).length = (melNpys records).length :=
    hperm.length_eq
  have hnlen : (melNpys records).length = records.length := by
    simp [melNpys]
  have hkeys2 : (records.map Prod.fst).Nodup := hkeys
  obtain ⟨i, hi, hne_i⟩ := lists_ne_exists_getD_ne _ _ hslen hmoved
  have hN : (melNpys records).getD i "" = (records.getD i ("", 0)).1 :=
    getD_map_of_lt records Prod.fst i (by omega) ("", 0) ""
  have hsmem : (shuffle (melNpys records)).getD i "" ∈ melNpys records := by
    apply hperm.mem_iff.mp
    rw [List.getD_eq_getElem _ _ (by omega)]
    exact List.getElem_mem (by omega)
  obtain ⟨j, hj, hjk⟩ : ∃ j, j < records.length ∧
      (records.getD j ("", 0)).1 = (shuffle (melNpys records)).getD i "" := by
    obtain ⟨jj, hjj, hjx⟩ := List.mem_iff_getElem.mp hsmem
    have hjjr : jj < records.length := by omega
    refine ⟨jj, hjjr, ?_⟩
    rw [← hjx, ← getD_map_of_lt records Prod.fst jj hjjr ("", 0) ""]
    exact List.getD_eq_getElem _ _ hjj
  have hman_i : manifestLen maxL records ((melNpys records).getD i "") =
      clampLen maxL ((records.getD i ("", 0)).2) := by
    unfold manifestLen
    rw [hN, find?_of_nodup_keys records hkeys2 i (by omega), Option.getD_some]
  have hman_s : manifestLen maxL records
        ((shuffle (melNpys records)).getD i "") =
      clampLen maxL ((records.getD j ("", 0)).2) := by
    unfold manifestLen
    rw [← hjk, find?_of_nodup_keys records hkeys2 j hj, Option.getD_some]
  have hij : i ≠ j := by
    intro hc
    subst hc
    apply hne_i
    rw [hN]
    exact hjk.symm
  have hLj : (melLengths maxL records).getD j 0 =
      clampLen maxL ((records.getD j ("", 0)).2) :=
    getD_map_of_lt records _ j hj ("", 0) 0
  have hll : (melLengths maxL records).getD i 0 ≠
      (melLengths maxL records).getD j 0 := by
    apply nodup_getD_ne _ hlens i j ?_ ?_ hij
    · simpa [melLengths] using (by omega : i < records.length)
    · simpa [melLengths] using hj
  refine ⟨i, by omega, ?_⟩
  intro hc
  apply hll
  have hc2 : (melLengths maxL records).getD i 0 =
      manifestLen maxL records ((shuffle (melNpys records)).getD i "") := hc
  rw [hman_s] at hc2
  rw [hLj]
  exact hc2

/-- Concrete instance of `melLoader_length_mismatch`: a two-record manifest
with distinct lengths and a shuffle that swaps the two paths. -/
theorem melLoader_length_mismatch_witness :
    ∃ i, i < ([("a", 5), ("b", 7)] : List (String × Int)).length ∧
      (melLoaderInit List.reverse 100 [("a", 5), ("b", 7)]).2.getD i 0 ≠
        manifestLen 100 [("a", 5), ("b", 7)]
          ((melLoaderInit List.reverse 100 [("a", 5), ("b", 7)]).1.getD i "") :=
  melLoader_length_mismatch List.reverse 100 [("a", 5), ("b", 7)]
    (List.reverse_perm _) (by decide) (by decide) (by decide)

/-! ### Helper lemmas about `MelCollate.__call__` -/

theorem insertDesc_perm (key : Nat → Nat) (a : Nat) :
    ∀ l : List Nat, (insertDesc key a l).Perm (a :: l)
  | [] => List.Perm.refl _
  | b :: bs => by
    unfold insertDesc
    by_cases h : key b < key a
    · rw [if_pos h]
    · rw [if_neg h]
      exact ((insertDesc_perm key a bs).cons b).trans (List.Perm.swap a b bs)

theorem sortDesc_perm (key : Nat → Nat) (l : List Nat) :
    (sortDesc key l).Perm l := by
  induction l with
  | nil => exact List.Perm.refl _
  | cons a t ih => exact (insertDesc_perm key a _).trans (ih.cons a)

theorem insertDesc_sorted (key : Nat → Nat) (a : Nat) :
    ∀ l : List Nat, l.Pairwise (fun x y => key y ≤ key x) →
      (insertDesc key a l).Pairwise (fun x y => key y ≤ key x)
  | [], _ => by simp [insertDesc]
  | b :: bs, h => by
    unfold insertDesc
    by_cases hb : key b < key a
    · rw [if_pos hb]
      rw [List.pairwise_cons]
      refine ⟨?_, h⟩
      intro y hy
      rcases List.mem_cons.mp hy with rfl | hy2
      · omega
      · have := (List.pairwise_cons.mp h).1 y hy2
        omega
    · rw [if_neg hb]
      rw [List.pairwise_cons]
      constructor
      · intro y hy
        have hmem : y ∈ a :: bs := (insertDesc_perm key a bs).mem_iff.mp hy
        rcases List.mem_cons.mp hmem with rfl | hy2
        · omega
        · exact (List.pairwise_cons.mp h).1 y hy2
      · exact insertDesc_sorted key a bs (List.pairwise_cons.mp h).2

theorem sortDesc_sorted (key : Nat → Nat) (l : List Nat) :
    (sortDesc key l).Pairwise (fun x y => key y ≤ key x) := by
  induction l with
  | nil => simp [sortDesc]
  | cons a t ih => exact insertDesc_sorted key a _ ih

/-- C9: For every non-empty batch of rectangular mels of a common
feature dimension whose frame lengths are at most `max_length`,
`MelCollate.__call__` returns one padded mel and one recorded length per
item, every padded mel has `feature_dim` rows of exactly `max_length`
columns, the recorded lengths are in descending order, the (padded mel,
length) rows are exactly the input items (each with its true frame length)
up to the sorting permutation, and each row of a padded mel carries the
item's data in columns `[0, length)` followed by zeros in
`[length, max_length)`. -/
theorem melCollate_spec (maxLen d : Nat) (batch : List (List (List Int)))
    (hne : batch ≠ [])
    (hdim : ∀ m ∈ batch, m.length = d)
    (hrect : ∀ m ∈ batch, ∀ row ∈ m, row.length = melLen m)
    (hmax : ∀ m ∈ batch, melLen m ≤ maxLen) :
    (melCollate maxLen batch).1.length = batch.length ∧
    (melCollate maxLen batch).2.length = batch.length ∧
    (∀ p ∈ (melCollate maxLen batch).1, p.length = d ∧
      ∀ row ∈ p, row.length = maxLen) ∧
    List.Pairwise (fun a b => b ≤ a) (melCollate maxLen batch).2 ∧
    ((melCollate maxLen batch).1.zip (melCollate maxLen batch).2).Perm
      (batch.map (fun m => (padMel maxLen m, melLen m))) ∧
    (∀ pr ∈ (melCollate maxLen batch).1.zip (melCollate maxLen batch).2,
      ∀ row ∈ pr.1, pr.2 ≤ row.length ∧
        row.drop pr.2 = List.replicate (maxLen - pr.2) 0 ∧
        ∃ m ∈ batch, melLen m = pr.2 ∧ row.take pr.2 ∈ m.map (List.take pr.2)) := by
  have hperm_ids : (sortDesc (fun j => melLen (batch.getD j []))
      (List.range batch.length)).Perm (List.range batch.length) :=
    sortDesc_perm _ _
  have hids_len : (sortDesc (fun j => melLen (batch.getD j []))
      (List.range batch.length)).length = batch.length := by
    rw [hperm_ids.length_eq, List.length_range]
  have hids_mem : ∀ j ∈ sortDesc (fun j => melLen (batch.getD j []))
      (List.range batch.length), j < batch.length := by
    intro j hj
    exact List.mem_range.mp (hperm_ids.mem_iff.mp hj)
  have hbatch_mem : ∀ j, j < batch.length → batch.getD j [] ∈ batch := by
    intro j hj
    rw [List.getD_eq_getElem _ _ hj]
    exact List.getElem_mem hj
  unfold melCollate
  refine ⟨?_, ?_, ?_, ?_, ?_, ?_⟩
  · rw [List.length_map, hids_len]
  · rw [List.length_map, hids_len]
  · intro p hp
    obtain ⟨j, hj, hjp⟩ := List.mem_map.mp hp
    have hjlt : j < batch.length := hids_mem j hj
    have hm : batch.getD j [] ∈ batch := hbatch_mem j hjlt
    subst hjp
    constructor
    · rw [padMel, List.length_map]
      exact hdim _ hm
    · intro row hrow
      obtain ⟨r, hr, hrr⟩ := List.mem_map.mp hrow
      subst hrr
      unfold padRow
      rw [List.length_append, List.length_replicate, hrect _ hm r hr]
      have := hmax _ hm
      omega
  · apply List.Pairwise.map
    · intro a b hab
      exact hab
    · exact sortDesc_sorted _ _
  · rw [List.zip_map']
    refine (hperm_ids.map _).trans ?_
    rw [range_map_getD (fun m => (padMel maxLen m, melLen m)) [] batch]
  · intro pr hpr
    rw [List.zip_map'] at hpr
    obtain ⟨j, hj, hjpr⟩ := List.mem_map.mp hpr
    have hjlt : j < batch.length := hids_mem j hj
    have hm : batch.getD j [] ∈ batch := hbatch_mem j hjlt
    subst hjpr
    intro row hrow
    obtain ⟨r, hr, hrr⟩ := List.mem_map.mp hrow
    subst hrr
    have hrl : r.length = melLen (batch.getD j []) := hrect _ hm r hr
    have hmaxl : melLen (batch.getD j []) ≤ maxLen := hmax _ hm
    refine ⟨?_, ?_, ?_⟩
    · unfold padRow
      rw [List.length_append, List.length_replicate]
      omega
    · show (padRow maxLen r).drop (melLen (batch.getD j [])) = _
      unfold padRow
      rw [← hrl, List.drop_left, hrl]
    · refine ⟨batch.getD j [], hm, rfl, ?_⟩
      have htake : (padRow maxLen r).take (melLen (batch.getD j [])) =
          r.take (melLen (batch.getD j [])) := by
        unfold padRow
        rw [← hrl, List.take_left, List.take_length]
      rw [htake]
      exact List.mem_map_of_mem _ hr

/-- Concrete instance of `melCollate_spec`: three single-row mels of frame
lengths `[10, 3, 7]` with `max_length = 20` — the collated length vector has
one entry per item and is descending (it evaluates to `[10, 7, 3]`). -/
theorem melCollate_spec_witness :
    (melCollate 20 [[List.replicate 10 1], [List.replicate 3 2],
        [List.replicate 7 3]]).2.length = 3 ∧
    List.Pairwise (fun a b => b ≤ a)
      (melCollate 20 [[List.replicate 10 1], [List.replicate 3 2],
        [List.replicate 7 3]]).2 :=
  ⟨(melCollate_spec 20 1 _ (by decide) (by decide) (by decide) (by decide)).2.1,
   (melCollate_spec 20 1 _ (by decide) (by decide) (by decide)
      (by decide)).2.2.2.1⟩

end FrePainter
